import Mathlib

/-!
Formal model of the sakurai-nmf matrix-factorization core.

The repository's factorization core (`sakurai_nmf/matrix_factorization`) and loss
utilities (`sakurai_nmf/losses`) are exercised by
`src/sakurai_nmf/tests/test_tf_matrix_factorization.py`; the implementation modules
themselves are not part of the available sources, so every solver-side definition
below is modelled from the specification (sections 2-8 of the design document) and
is marked as such in its doc comment.  Matrices are dense rational matrices indexed
by `Fin`; the dynamic-shape entry points of section 6 are modelled by `MatD`.
-/

namespace SakuraiNMF

open Matrix BigOperators

/-- Modelled from the spec: the Frobenius inner product of two equally shaped
matrices, `trace (Aᵀ B) = ∑ i j, A i j * B i j`; the spec's norm and loss
utilities (§4.1) are defined from it.  (The `losses` module is not in the
available sources.) -/
def frobDot {m n : ℕ} (A B : Matrix (Fin m) (Fin n) ℚ) : ℚ :=
  Matrix.trace (A.transpose * B)

/-- Modelled from the spec (§4.1): the sum of squared entrywise differences,
`∑ (target - reconstruction)^2`. -/
def sqLoss {m n : ℕ} (A B : Matrix (Fin m) (Fin n) ℚ) : ℚ :=
  frobDot (A - B) (A - B)

/-- Modelled from the spec (§4.1): `frobenius_loss(target, reconstruction) =
mean((target - reconstruction)^2)`.  (The `losses` module is not in the
available sources.) -/
def frobenius_loss {m n : ℕ} (A B : Matrix (Fin m) (Fin n) ℚ) : ℚ :=
  sqLoss A B / ((m * n : ℕ) : ℚ)

/-- Modelled from the spec (§4.2): `project_nonneg(M)[i,j] = max(M[i,j], 0)`. -/
def project_nonneg {m n : ℕ} (M : Matrix (Fin m) (Fin n) ℚ) :
    Matrix (Fin m) (Fin n) ℚ :=
  Matrix.of fun i j => max (M i j) 0

/-- Modelled from the spec (§4.5): the small ridge term added to a singular Gram
matrix before inversion. -/
def ridge : ℚ := 1 / 1000000

/-- Matrix inverse over `ℚ` via the adjugate; returns `0` on a singular input
(only ever applied to matrices made invertible per §4.5). -/
def qInv {k : ℕ} (A : Matrix (Fin k) (Fin k) ℚ) : Matrix (Fin k) (Fin k) ℚ :=
  if A.det = 0 then 0 else A.det⁻¹ • A.adjugate

/-- Modelled from the spec (§4.5): least-squares update of the right factor
`X` of `‖T - F X‖_F` by the normal-equation / pseudoinverse approach
`X = (Fᵀ F)⁻¹ Fᵀ T`, falling back to a ridge-regularized Gram matrix when the
Gram matrix is singular so that a result always exists. -/
def solve_right {m k n : ℕ} (F : Matrix (Fin m) (Fin k) ℚ)
    (T : Matrix (Fin m) (Fin n) ℚ) : Matrix (Fin k) (Fin n) ℚ :=
  let G := F.transpose * F
  if G.det = 0 then
    qInv (G + ridge • (1 : Matrix (Fin k) (Fin k) ℚ)) * (F.transpose * T)
  else qInv G * (F.transpose * T)

/-- Modelled from the spec (§4.5): least-squares update of the left factor
`X` of `‖T - X F‖_F`, `X = T Fᵀ (F Fᵀ)⁻¹`, with the same ridge fallback. -/
def solve_left {m k n : ℕ} (F : Matrix (Fin k) (Fin n) ℚ)
    (T : Matrix (Fin m) (Fin n) ℚ) : Matrix (Fin m) (Fin k) ℚ :=
  let G := F * F.transpose
  if G.det = 0 then
    (T * F.transpose) * qInv (G + ridge • (1 : Matrix (Fin k) (Fin k) ℚ))
  else (T * F.transpose) * qInv G

/-- Modelled from the spec (§4.6, §6): one full alternation of semi-NMF —
solve `V` unconstrained by least squares, then solve `U` by least squares
followed by the nonnegativity projection.  The `data_format` flag (exercised by
`test_np_u_neg_matlab_semi_nmf`) moves the nonnegativity constraint from `U`
to `V` when false. -/
def semi_nmf {m k n : ℕ} (A : Matrix (Fin m) (Fin n) ℚ)
    (U : Matrix (Fin m) (Fin k) ℚ) (V : Matrix (Fin k) (Fin n) ℚ)
    (data_format : Bool) :
    Matrix (Fin m) (Fin k) ℚ × Matrix (Fin k) (Fin n) ℚ :=
  let Vls := solve_right U A
  let V1 := if data_format then Vls else project_nonneg Vls
  let Uls := solve_left V1 A
  let U1 := if data_format then project_nonneg Uls else Uls
  (U1, V1)

/-! ### Simplex projector (§4.4) -/

/-- Modelled from the spec (§4.4): the row sorted into descending order, the
first step of the standard simplex-projection algorithm. -/
def sortedDesc (l : List ℚ) : List ℚ := l.insertionSort (· ≥ ·)

/-- Sum of the first `j` entries of a list (the cumulative sum used by the
simplex-projection threshold search). -/
def takeSum (l : List ℚ) (j : ℕ) : ℚ := (l.take j).sum

/-- Modelled from the spec (§4.4): the predicate "the cumulative-mean-adjusted
threshold at (1-based) index `j` keeps the corresponding sorted entry
positive", i.e. `u_j + (1 - (u_1 + ... + u_j))/j > 0`, cross-multiplied. -/
def simplexCond (u : List ℚ) (j : ℕ) : Prop :=
  1 ≤ j ∧ j ≤ u.length ∧ takeSum u j < (j : ℚ) * u.getD (j - 1) 0 + 1

instance (u : List ℚ) (j : ℕ) : Decidable (simplexCond u j) :=
  inferInstanceAs (Decidable (_ ∧ _ ∧ _))

/-- Modelled from the spec (§4.4): the largest (1-based) index for which the
threshold keeps the sorted entry positive. -/
def simplexRho (u : List ℚ) : ℕ := Nat.findGreatest (simplexCond u) u.length

/-- Modelled from the spec (§4.4): the threshold subtracted from every entry,
computed on the descending sort of the row. -/
def simplexLam (l : List ℚ) : ℚ :=
  let u := sortedDesc l
  (1 - takeSum u (simplexRho u)) / (simplexRho u : ℚ)

/-- Modelled from the spec (§4.4): projection of one row onto the probability
simplex — subtract the threshold from every entry and clamp negatives to
zero. -/
def projRow {n : ℕ} (r : Fin n → ℚ) : Fin n → ℚ :=
  fun j => max (r j + simplexLam (List.ofFn r)) 0

/-- Modelled from the spec (§4.4): `project_simplex_rows` projects each row of
a matrix onto the probability simplex. -/
def project_simplex_rows {m n : ℕ} (M : Matrix (Fin m) (Fin n) ℚ) :
    Matrix (Fin m) (Fin n) ℚ :=
  Matrix.of fun i => projRow (fun j => M i j)

/-- Modelled from the spec (§4.8, §6): simplex-constrained semi-NMF — the same
alternation as `semi_nmf` with the simplex projector in place of the plain
nonnegativity clamp on `U`. -/
def softmax_nmf {m k n : ℕ} (A : Matrix (Fin m) (Fin n) ℚ)
    (U : Matrix (Fin m) (Fin k) ℚ) (V : Matrix (Fin k) (Fin n) ℚ) :
    Matrix (Fin m) (Fin k) ℚ × Matrix (Fin k) (Fin n) ℚ :=
  let V1 := solve_right U A
  let U1 := project_simplex_rows (solve_left V1 A)
  (U1, V1)

/-! ### Bias augmentation (§4.3) -/

/-- Modelled from the spec (§4.3): the non-augmented part of a bias-augmented
factor (all rows but the last). -/
def topOf {k n : ℕ} (V : Matrix (Fin (k + 1)) (Fin n) ℚ) :
    Matrix (Fin k) (Fin n) ℚ :=
  Matrix.of fun i j => V i.castSucc j

/-- Modelled from the spec (§4.3): reattach a constant last row to the
recomputed non-augmented part. -/
def stackLast {k n : ℕ} (T : Matrix (Fin k) (Fin n) ℚ) (b : Fin n → ℚ) :
    Matrix (Fin (k + 1)) (Fin n) ℚ :=
  Matrix.of (Fin.snoc T b)

/-- The rank-one contribution `ones ⊗ b` of the bias row `b` to the
reconstruction `[U, 1] @ V`. -/
def biasMat {m n : ℕ} (b : Fin n → ℚ) : Matrix (Fin m) (Fin n) ℚ :=
  Matrix.of fun _ j => b j

/-- Modelled from the spec (§4.6 bias mode): one alternation of bias-enabled
semi-NMF.  `V` arrives bias-augmented (`k+1` rows); its constant last row `b`
is never itself recomputed or projected — only the non-augmented part is
solved (against the target minus the bias contribution) and `b` is reattached;
`U` is returned un-augmented. -/
def semi_nmf_bias {m k n : ℕ} (A : Matrix (Fin m) (Fin n) ℚ)
    (U : Matrix (Fin m) (Fin k) ℚ) (V : Matrix (Fin (k + 1)) (Fin n) ℚ) :
    Matrix (Fin m) (Fin k) ℚ × Matrix (Fin (k + 1)) (Fin n) ℚ :=
  let b := fun j => V (Fin.last k) j
  let Vtop := solve_right U (A - biasMat b)
  let U1 := project_nonneg (solve_left Vtop (A - biasMat b))
  (U1, stackLast Vtop b)

/-- Modelled from the spec (§4.8 with §4.6 bias mode): bias-enabled
simplex-constrained semi-NMF. -/
def softmax_nmf_bias {m k n : ℕ} (A : Matrix (Fin m) (Fin n) ℚ)
    (U : Matrix (Fin m) (Fin k) ℚ) (V : Matrix (Fin (k + 1)) (Fin n) ℚ) :
    Matrix (Fin m) (Fin k) ℚ × Matrix (Fin (k + 1)) (Fin n) ℚ :=
  let b := fun j => V (Fin.last k) j
  let Vtop := solve_right U (A - biasMat b)
  let U1 := project_simplex_rows (solve_left Vtop (A - biasMat b))
  (U1, stackLast Vtop b)

/-! ### Nonlinear semi-NMF (§4.7) -/

/-- The fixed rectifier activation of the nonlinear solver. -/
def relu (x : ℚ) : ℚ := max x 0

/-- Modelled from the spec (§4.7): the one-sided regression target — entries
where the current reconstruction is already positive are treated as exact, and
entries clamped to zero by the rectifier are replaced by a value not worse
than zero. -/
def nonlin_target {m n : ℕ} (A R : Matrix (Fin m) (Fin n) ℚ) :
    Matrix (Fin m) (Fin n) ℚ :=
  Matrix.of fun i j => if 0 < R i j then A i j else min (A i j) 0

/-- Modelled from the spec (§4.7): one `V` update of the nonlinear solver. -/
def nonlin_v_step {m k n : ℕ} (A : Matrix (Fin m) (Fin n) ℚ)
    (U : Matrix (Fin m) (Fin k) ℚ) (V : Matrix (Fin k) (Fin n) ℚ) :
    Matrix (Fin k) (Fin n) ℚ :=
  solve_right U (nonlin_target A (U * V))

/-- Modelled from the spec (§4.7): one `U` update of the nonlinear solver —
the inverse-activation-adjusted least squares followed by the nonnegativity
projection. -/
def nonlin_u_step {m k n : ℕ} (A : Matrix (Fin m) (Fin n) ℚ)
    (U : Matrix (Fin m) (Fin k) ℚ) (V : Matrix (Fin k) (Fin n) ℚ) :
    Matrix (Fin m) (Fin k) ℚ :=
  project_nonneg (solve_left V (nonlin_target A (U * V)))

/-- Modelled from the spec (§4.7): one outer iteration — the `V` update
repeated `num_calc_v` times with `U` fixed, then the `U` update repeated
`num_calc_u` times; a zero budget skips that factor's update entirely. -/
def nonlin_outer {m k n : ℕ} (A : Matrix (Fin m) (Fin n) ℚ)
    (num_calc_u num_calc_v : ℕ)
    (p : Matrix (Fin m) (Fin k) ℚ × Matrix (Fin k) (Fin n) ℚ) :
    Matrix (Fin m) (Fin k) ℚ × Matrix (Fin k) (Fin n) ℚ :=
  let V1 := (fun W => nonlin_v_step A p.1 W)^[num_calc_v] p.2
  let U1 := (fun W => nonlin_u_step A W V1)^[num_calc_u] p.1
  (U1, V1)

/-- Modelled from the spec (§4.7, §6): the nonlinear semi-NMF entry point,
alternating the outer iteration `num_iters` times. -/
def nonlin_semi_nmf {m k n : ℕ} (A : Matrix (Fin m) (Fin n) ℚ)
    (U : Matrix (Fin m) (Fin k) ℚ) (V : Matrix (Fin k) (Fin n) ℚ)
    (num_calc_u num_calc_v num_iters : ℕ) :
    Matrix (Fin m) (Fin k) ℚ × Matrix (Fin k) (Fin n) ℚ :=
  (nonlin_outer A num_calc_u num_calc_v)^[num_iters] (U, V)

/-- Modelled from the spec (§4.7 with §4.6 bias mode): one bias-enabled `V`
update; the constant last row `b` is untouched, the non-augmented part is
solved against the one-sided target minus the bias contribution. -/
def nonlin_bias_v_step {m k n : ℕ} (A : Matrix (Fin m) (Fin n) ℚ)
    (U : Matrix (Fin m) (Fin k) ℚ) (V : Matrix (Fin (k + 1)) (Fin n) ℚ) :
    Matrix (Fin (k + 1)) (Fin n) ℚ :=
  let b := fun j => V (Fin.last k) j
  let R := U * topOf V + biasMat b
  stackLast (solve_right U (nonlin_target A R - biasMat b)) b

/-- Modelled from the spec (§4.7 with §4.6 bias mode): one bias-enabled `U`
update. -/
def nonlin_bias_u_step {m k n : ℕ} (A : Matrix (Fin m) (Fin n) ℚ)
    (U : Matrix (Fin m) (Fin k) ℚ) (V : Matrix (Fin (k + 1)) (Fin n) ℚ) :
    Matrix (Fin m) (Fin k) ℚ :=
  let b := fun j => V (Fin.last k) j
  let R := U * topOf V + biasMat b
  project_nonneg (solve_left (topOf V) (nonlin_target A R - biasMat b))

/-- Modelled from the spec (§4.7 with §4.6 bias mode): one bias-enabled outer
iteration with the two per-factor budgets. -/
def nonlin_bias_outer {m k n : ℕ} (A : Matrix (Fin m) (Fin n) ℚ)
    (num_calc_u num_calc_v : ℕ)
    (p : Matrix (Fin m) (Fin k) ℚ × Matrix (Fin (k + 1)) (Fin n) ℚ) :
    Matrix (Fin m) (Fin k) ℚ × Matrix (Fin (k + 1)) (Fin n) ℚ :=
  let V1 := (fun W => nonlin_bias_v_step A p.1 W)^[num_calc_v] p.2
  let U1 := (fun W => nonlin_bias_u_step A W V1)^[num_calc_u] p.1
  (U1, V1)

/-- Modelled from the spec (§4.7, §6): the bias-enabled nonlinear semi-NMF
entry point. -/
def nonlin_semi_nmf_bias {m k n : ℕ} (A : Matrix (Fin m) (Fin n) ℚ)
    (U : Matrix (Fin m) (Fin k) ℚ) (V : Matrix (Fin (k + 1)) (Fin n) ℚ)
    (num_calc_u num_calc_v num_iters : ℕ) :
    Matrix (Fin m) (Fin k) ℚ × Matrix (Fin (k + 1)) (Fin n) ℚ :=
  (nonlin_bias_outer A num_calc_u num_calc_v)^[num_iters] (U, V)

/-! ### Dynamic-shape entry points (§6, §7) -/

/-- A dense rational matrix with run-time shape, modelling the caller-facing
interface of §6. -/
structure MatD where
  rows : ℕ
  cols : ℕ
  entries : Matrix (Fin rows) (Fin cols) ℚ

/-- Modelled from the spec (§7): the error kinds surfaced at a solver
boundary. -/
inductive NmfError where
  | ShapeMismatch
  deriving DecidableEq

/-- The number of augmented rows `V` carries in bias mode. -/
def biasOffset (use_bias : Bool) : ℕ := if use_bias then 1 else 0

/-- Modelled from the spec (§6): the shape precondition of all three solver
entry points — `A.rows == U.rows`, `U.cols == V.rows` pre bias-augmentation
(so `V.rows == U.cols + 1` when bias is enabled), and `V.cols == A.cols`. -/
def shape_ok (a u v : MatD) (use_bias : Bool) : Prop :=
  a.rows = u.rows ∧ v.rows = u.cols + biasOffset use_bias ∧ v.cols = a.cols

instance (a u v : MatD) (use_bias : Bool) : Decidable (shape_ok a u v use_bias) :=
  inferInstanceAs (Decidable (_ ∧ _ ∧ _))

/-- Modelled from the spec (§6, §7): `semi_nmf` entry point with run-time
shapes — shapes are validated once at entry; on violation the call fails with
`ShapeMismatch` and returns no partial result. -/
def semi_nmf_checked (a u v : MatD) (use_bias data_format : Bool) :
    Except NmfError (MatD × MatD) :=
  match use_bias with
  | false =>
    if h : shape_ok a u v false then
      let U : Matrix (Fin a.rows) (Fin u.cols) ℚ :=
        Matrix.of fun i j => u.entries (Fin.cast h.1 i) j
      let V : Matrix (Fin u.cols) (Fin a.cols) ℚ :=
        Matrix.of fun i j =>
          v.entries (Fin.cast (h.2.1.symm : u.cols = v.rows) i)
            (Fin.cast h.2.2.symm j)
      let r := semi_nmf a.entries U V data_format
      Except.ok (⟨a.rows, u.cols, r.1⟩, ⟨u.cols, a.cols, r.2⟩)
    else Except.error NmfError.ShapeMismatch
  | true =>
    if h : shape_ok a u v true then
      let U : Matrix (Fin a.rows) (Fin u.cols) ℚ :=
        Matrix.of fun i j => u.entries (Fin.cast h.1 i) j
      let V : Matrix (Fin (u.cols + 1)) (Fin a.cols) ℚ :=
        Matrix.of fun i j =>
          v.entries (Fin.cast (h.2.1.symm : u.cols + 1 = v.rows) i)
            (Fin.cast h.2.2.symm j)
      let r := semi_nmf_bias a.entries U V
      Except.ok (⟨a.rows, u.cols, r.1⟩, ⟨u.cols + 1, a.cols, r.2⟩)
    else Except.error NmfError.ShapeMismatch

/-- Modelled from the spec (§6, §7): `softmax_nmf` entry point with run-time
shapes. -/
def softmax_nmf_checked (a u v : MatD) (use_bias : Bool) :
    Except NmfError (MatD × MatD) :=
  match use_bias with
  | false =>
    if h : shape_ok a u v false then
      let U : Matrix (Fin a.rows) (Fin u.cols) ℚ :=
        Matrix.of fun i j => u.entries (Fin.cast h.1 i) j
      let V : Matrix (Fin u.cols) (Fin a.cols) ℚ :=
        Matrix.of fun i j =>
          v.entries (Fin.cast (h.2.1.symm : u.cols = v.rows) i)
            (Fin.cast h.2.2.symm j)
      let r := softmax_nmf a.entries U V
      Except.ok (⟨a.rows, u.cols, r.1⟩, ⟨u.cols, a.cols, r.2⟩)
    else Except.error NmfError.ShapeMismatch
  | true =>
    if h : shape_ok a u v true then
      let U : Matrix (Fin a.rows) (Fin u.cols) ℚ :=
        Matrix.of fun i j => u.entries (Fin.cast h.1 i) j
      let V : Matrix (Fin (u.cols + 1)) (Fin a.cols) ℚ :=
        Matrix.of fun i j =>
          v.entries (Fin.cast (h.2.1.symm : u.cols + 1 = v.rows) i)
            (Fin.cast h.2.2.symm j)
      let r := softmax_nmf_bias a.entries U V
      Except.ok (⟨a.rows, u.cols, r.1⟩, ⟨u.cols + 1, a.cols, r.2⟩)
    else Except.error NmfError.ShapeMismatch

/-- Modelled from the spec (§6, §7): `nonlin_semi_nmf` entry point with
run-time shapes and the three iteration budgets. -/
def nonlin_semi_nmf_checked (a u v : MatD) (use_bias : Bool)
    (num_calc_u num_calc_v num_iters : ℕ) : Except NmfError (MatD × MatD) :=
  match use_bias with
  | false =>
    if h : shape_ok a u v false then
      let U : Matrix (Fin a.rows) (Fin u.cols) ℚ :=
        Matrix.of fun i j => u.entries (Fin.cast h.1 i) j
      let V : Matrix (Fin u.cols) (Fin a.cols) ℚ :=
        Matrix.of fun i j =>
          v.entries (Fin.cast (h.2.1.symm : u.cols = v.rows) i)
            (Fin.cast h.2.2.symm j)
      let r := nonlin_semi_nmf a.entries U V num_calc_u num_calc_v num_iters
      Except.ok (⟨a.rows, u.cols, r.1⟩, ⟨u.cols, a.cols, r.2⟩)
    else Except.error NmfError.ShapeMismatch
  | true =>
    if h : shape_ok a u v true then
      let U : Matrix (Fin a.rows) (Fin u.cols) ℚ :=
        Matrix.of fun i j => u.entries (Fin.cast h.1 i) j
      let V : Matrix (Fin (u.cols + 1)) (Fin a.cols) ℚ :=
        Matrix.of fun i j =>
          v.entries (Fin.cast (h.2.1.symm : u.cols + 1 = v.rows) i)
            (Fin.cast h.2.2.symm j)
      let r := nonlin_semi_nmf_bias a.entries U V num_calc_u num_calc_v num_iters
      Except.ok (⟨a.rows, u.cols, r.1⟩, ⟨u.cols + 1, a.cols, r.2⟩)
    else Except.error NmfError.ShapeMismatch

/-! ### Concrete matrices used by counterexamples and witnesses -/

/-- The 1×1 rational matrix with the given entry. -/
def m1 (a : ℚ) : Matrix (Fin 1) (Fin 1) ℚ := Matrix.of fun _ _ => a

/-- The 2×1 rational matrix with the given entries. -/
def m21 (a b : ℚ) : Matrix (Fin 2) (Fin 1) ℚ :=
  Matrix.of fun i _ => if i = 0 then a else b

/-! ### Frobenius inner-product algebra and least-squares optimality -/

lemma frobDot_eq_sum {m n : ℕ} (A B : Matrix (Fin m) (Fin n) ℚ) :
    frobDot A B = ∑ j, ∑ i, A i j * B i j := by
  unfold frobDot Matrix.trace
  simp [Matrix.diag, Matrix.mul_apply, Matrix.transpose_apply]

lemma frobDot_self_nonneg {m n : ℕ} (A : Matrix (Fin m) (Fin n) ℚ) :
    0 ≤ frobDot A A := by
  rw [frobDot_eq_sum]
  exact Finset.sum_nonneg fun j _ =>
    Finset.sum_nonneg fun i _ => mul_self_nonneg _

lemma frobDot_comm {m n : ℕ} (A B : Matrix (Fin m) (Fin n) ℚ) :
    frobDot A B = frobDot B A := by
  unfold frobDot
  rw [← Matrix.trace_transpose, Matrix.transpose_mul, Matrix.transpose_transpose]

lemma frobDot_sub_right {m n : ℕ} (A B C : Matrix (Fin m) (Fin n) ℚ) :
    frobDot A (B - C) = frobDot A B - frobDot A C := by
  unfold frobDot
  rw [Matrix.mul_sub, Matrix.trace_sub]

lemma frobDot_sub_left {m n : ℕ} (A B C : Matrix (Fin m) (Fin n) ℚ) :
    frobDot (A - B) C = frobDot A C - frobDot B C := by
  unfold frobDot
  rw [Matrix.transpose_sub, Matrix.sub_mul, Matrix.trace_sub]

lemma frobDot_zero_right {m n : ℕ} (A : Matrix (Fin m) (Fin n) ℚ) :
    frobDot A (0 : Matrix (Fin m) (Fin n) ℚ) = 0 := by
  unfold frobDot
  rw [Matrix.mul_zero, Matrix.trace_zero]

lemma frobDot_mul_adjoint {m k n : ℕ} (F : Matrix (Fin m) (Fin k) ℚ)
    (M : Matrix (Fin k) (Fin n) ℚ) (N : Matrix (Fin m) (Fin n) ℚ) :
    frobDot (F * M) N = frobDot M (F.transpose * N) := by
  unfold frobDot
  rw [Matrix.transpose_mul, Matrix.mul_assoc]

lemma mul_qInv {k : ℕ} (A : Matrix (Fin k) (Fin k) ℚ) (h : A.det ≠ 0) :
    A * qInv A = 1 := by
  unfold qInv
  rw [if_neg h, Matrix.mul_smul, Matrix.mul_adjugate, smul_smul,
    inv_mul_cancel₀ h, one_smul]

/-- The least-squares optimality of the right-factor update: when the Gram
matrix is invertible, `solve_right F T` minimizes `‖T - F X‖_F²` over all `X`
(this is the closed-form update property of §4.5). -/
lemma solve_right_opt {m k n : ℕ} (F : Matrix (Fin m) (Fin k) ℚ)
    (T : Matrix (Fin m) (Fin n) ℚ) (h : (F.transpose * F).det ≠ 0)
    (X : Matrix (Fin k) (Fin n) ℚ) :
    sqLoss T (F * solve_right F T) ≤ sqLoss T (F * X) := by
  have hG : (F.transpose * F) * qInv (F.transpose * F) = 1 := mul_qInv _ h
  have hX0 : solve_right F T = qInv (F.transpose * F) * (F.transpose * T) := by
    unfold solve_right
    simp only [if_neg h]
  rw [hX0]
  set X0 : Matrix (Fin k) (Fin n) ℚ :=
    qInv (F.transpose * F) * (F.transpose * T) with hX0d
  have hnorm : F.transpose * (T - F * X0) = 0 := by
    rw [hX0d, Matrix.mul_sub, ← Matrix.mul_assoc, ← Matrix.mul_assoc, hG,
      Matrix.one_mul, sub_self]
  have hsplit : T - F * X = (T - F * X0) - F * (X - X0) := by
    rw [Matrix.mul_sub]
    abel
  have hED : frobDot (F * (X - X0)) (T - F * X0) = 0 := by
    rw [frobDot_mul_adjoint, hnorm, frobDot_zero_right]
  have hDE : frobDot (T - F * X0) (F * (X - X0)) = 0 := by
    rw [frobDot_comm]
    exact hED
  have hpyth : ∀ D E : Matrix (Fin m) (Fin n) ℚ, frobDot D E = 0 →
      frobDot E D = 0 → frobDot (D - E) (D - E) = frobDot D D + frobDot E E := by
    intro D E h1 h2
    rw [frobDot_sub_left, frobDot_sub_right, frobDot_sub_right, h1, h2]
    ring
  have hexp : sqLoss T (F * X) =
      sqLoss T (F * X0) + frobDot (F * (X - X0)) (F * (X - X0)) := by
    unfold sqLoss
    rw [hsplit, hpyth _ _ hDE hED]
  rw [hexp]
  have := frobDot_self_nonneg (F * (X - X0))
  linarith

/-! ### Evaluation lemmas for small concrete matrices -/

lemma transpose_m1 (a : ℚ) : (m1 a).transpose = m1 a := rfl

lemma m1_mul (a b : ℚ) : m1 a * m1 b = m1 (a * b) := by
  ext i j
  simp [m1, Matrix.mul_apply, Fin.sum_univ_one]

lemma det_m1 (a : ℚ) : (m1 a).det = a := by
  rw [Matrix.det_fin_one]
  rfl

lemma qInv_m1 (a : ℚ) (h : a ≠ 0) : qInv (m1 a) = m1 a⁻¹ := by
  unfold qInv
  rw [det_m1, if_neg h, Matrix.adjugate_fin_one]
  ext i j
  have hi : i = j := Subsingleton.elim i j
  subst hi
  simp [m1, Matrix.one_apply_eq]

lemma project_nonneg_m1 (a : ℚ) : project_nonneg (m1 a) = m1 (max a 0) := rfl

lemma solve_right_m1 (a t : ℚ) (h : a ≠ 0) :
    solve_right (m1 a) (m1 t) = m1 (t / a) := by
  have haa : a * a ≠ 0 := mul_ne_zero h h
  simp only [solve_right]
  rw [transpose_m1, m1_mul, det_m1, if_neg haa, qInv_m1 _ haa, m1_mul, m1_mul]
  ext i j
  simp only [m1, Matrix.of_apply]
  field_simp
  try ring

lemma solve_left_m1 (f t : ℚ) (h : f ≠ 0) :
    solve_left (m1 f) (m1 t) = m1 (t / f) := by
  have hff : f * f ≠ 0 := mul_ne_zero h h
  simp only [solve_left]
  rw [transpose_m1, m1_mul, det_m1, if_neg hff, qInv_m1 _ hff, m1_mul, m1_mul]
  ext i j
  simp only [m1, Matrix.of_apply]
  field_simp
  try ring

lemma frobenius_loss_m1 (x y : ℚ) :
    frobenius_loss (m1 x) (m1 y) = (x - y) ^ 2 := by
  unfold frobenius_loss sqLoss
  rw [frobDot_eq_sum]
  simp [m1, Fin.sum_univ_one, Matrix.sub_apply]
  ring

lemma tr_m21_mul (a b c d : ℚ) :
    (m21 a b).transpose * (m21 c d) = m1 (a * c + b * d) := by
  ext i j
  simp [m21, m1, Matrix.mul_apply, Fin.sum_univ_succ, Matrix.transpose_apply]

lemma m21_mul_m1 (a b c : ℚ) : m21 a b * m1 c = m21 (a * c) (b * c) := by
  ext i j
  fin_cases i <;> simp [m21, m1, Matrix.mul_apply, Fin.sum_univ_one]

lemma solve_right_m21 (a b t1 t2 : ℚ) (h : a * a + b * b ≠ 0) :
    solve_right (m21 a b) (m21 t1 t2) = m1 ((a * t1 + b * t2) / (a * a + b * b)) := by
  simp only [solve_right]
  rw [tr_m21_mul, det_m1, if_neg h, qInv_m1 _ h, tr_m21_mul, m1_mul]
  ext i j
  simp only [m1, Matrix.of_apply]
  field_simp
  try ring

lemma solve_left_m1_m21 (f t1 t2 : ℚ) (h : f ≠ 0) :
    solve_left (m1 f) (m21 t1 t2) = m21 (t1 / f) (t2 / f) := by
  have hff : f * f ≠ 0 := mul_ne_zero h h
  simp only [solve_left]
  rw [transpose_m1, m1_mul, det_m1, if_neg hff, qInv_m1 _ hff, m21_mul_m1,
    m21_mul_m1]
  ext i j
  fin_cases i <;> simp only [m21, Matrix.of_apply] <;> field_simp <;> try ring

/-! ### Definitional reduction lemmas for the solver entry points -/

lemma semi_nmf_fst_true {m k n : ℕ} (A : Matrix (Fin m) (Fin n) ℚ)
    (U : Matrix (Fin m) (Fin k) ℚ) (V : Matrix (Fin k) (Fin n) ℚ) :
    (semi_nmf A U V true).1 = project_nonneg (solve_left (solve_right U A) A) := rfl

lemma semi_nmf_snd_true {m k n : ℕ} (A : Matrix (Fin m) (Fin n) ℚ)
    (U : Matrix (Fin m) (Fin k) ℚ) (V : Matrix (Fin k) (Fin n) ℚ) :
    (semi_nmf A U V true).2 = solve_right U A := rfl

lemma semi_nmf_fst_false {m k n : ℕ} (A : Matrix (Fin m) (Fin n) ℚ)
    (U : Matrix (Fin m) (Fin k) ℚ) (V : Matrix (Fin k) (Fin n) ℚ) :
    (semi_nmf A U V false).1 =
      solve_left (project_nonneg (solve_right U A)) A := rfl

lemma semi_nmf_snd_false {m k n : ℕ} (A : Matrix (Fin m) (Fin n) ℚ)
    (U : Matrix (Fin m) (Fin k) ℚ) (V : Matrix (Fin k) (Fin n) ℚ) :
    (semi_nmf A U V false).2 = project_nonneg (solve_right U A) := rfl

lemma softmax_nmf_fst {m k n : ℕ} (A : Matrix (Fin m) (Fin n) ℚ)
    (U : Matrix (Fin m) (Fin k) ℚ) (V : Matrix (Fin k) (Fin n) ℚ) :
    (softmax_nmf A U V).1 =
      project_simplex_rows (solve_left (solve_right U A) A) := rfl

/-! ### Claim C8: the nonnegativity projector -/

/-- C8: for every real-valued matrix `M`, `project_nonneg(M)[i,j] =
max(M[i,j], 0)`, so its output has no negative entries, it is total with no
failure modes (it is a total function), and it is idempotent. -/
theorem claim_C8 {m n : ℕ} (M : Matrix (Fin m) (Fin n) ℚ) :
    (∀ i j, project_nonneg M i j = max (M i j) 0) ∧
    (∀ i j, 0 ≤ project_nonneg M i j) ∧
    project_nonneg (project_nonneg M) = project_nonneg M := by
  refine ⟨fun i j => rfl, fun i j => le_max_right _ _, ?_⟩
  ext i j
  exact max_eq_left (le_max_right _ _)

/-! ### Claim C3: nonnegativity of the returned `U` factor -/

/-- C3: for every input triple of valid shapes, every entry of the factor `U`
returned by `semi_nmf` (default data format) and by `softmax_nmf` is
nonnegative. -/
theorem claim_C3 {m k n : ℕ} (A : Matrix (Fin m) (Fin n) ℚ)
    (U : Matrix (Fin m) (Fin k) ℚ) (V : Matrix (Fin k) (Fin n) ℚ) :
    (∀ i j, 0 ≤ (semi_nmf A U V true).1 i j) ∧
    (∀ i j, 0 ≤ (softmax_nmf A U V).1 i j) := by
  constructor
  · intro i j
    rw [semi_nmf_fst_true]
    exact le_max_right _ _
  · intro i j
    rw [softmax_nmf_fst]
    exact le_max_right _ _

/-! ### Claim C1: loss monotonicity of `semi_nmf` -/

/-- C1 counterexample: at `A = [[1]]`, `U = [[-1]]`, `V = [[-1]]` (valid
shapes), the pair returned by `semi_nmf` has reconstruction loss `1`, strictly
greater than the initial loss `0`: the nonnegativity projection of `U` can
increase the loss, so the claimed inequality fails. -/
theorem claim_C1_counterexample :
    ¬ (frobenius_loss (m1 1)
          ((semi_nmf (m1 1) (m1 (-1)) (m1 (-1)) true).1 *
            (semi_nmf (m1 1) (m1 (-1)) (m1 (-1)) true).2) ≤
        frobenius_loss (m1 1) (m1 (-1) * m1 (-1))) := by
  have hsr : solve_right (m1 (-1 : ℚ)) (m1 1) = m1 (-1) := by
    rw [solve_right_m1 _ _ (by norm_num)]
    norm_num
  have hsl : solve_left (m1 (-1 : ℚ)) (m1 1) = m1 (-1) := by
    rw [solve_left_m1 _ _ (by norm_num)]
    norm_num
  rw [semi_nmf_fst_true, semi_nmf_snd_true, hsr, hsl, project_nonneg_m1]
  norm_num
  rw [m1_mul, m1_mul, frobenius_loss_m1, frobenius_loss_m1]
  norm_num

/-- C1 amended: for every input triple of valid shapes whose Gram matrix
`Uᵀ U` is invertible, the returned factor `V` alone already satisfies
`frobenius_loss(A, U @ V') ≤ frobenius_loss(A, U @ V)` — the unconstrained
least-squares `V` update never increases the reconstruction loss; the
inequality for the full returned pair `(U', V')` fails (see the
counterexample) because the nonnegativity projection applied to `U` can
increase the loss. -/
theorem claim_C1_amended {m k n : ℕ} (A : Matrix (Fin m) (Fin n) ℚ)
    (U : Matrix (Fin m) (Fin k) ℚ) (V : Matrix (Fin k) (Fin n) ℚ)
    (h : (U.transpose * U).det ≠ 0) :
    frobenius_loss A (U * (semi_nmf A U V true).2) ≤
      frobenius_loss A (U * V) := by
  rw [semi_nmf_snd_true]
  unfold frobenius_loss
  rw [div_eq_mul_inv, div_eq_mul_inv]
  refine mul_le_mul_of_nonneg_right ?_ (by positivity)
  exact solve_right_opt U A h V

/-- C1 amended, witness: the hypothesis and conclusion hold at the concrete
input `A = [[1]]`, `U = [[-1]]`, `V = [[-1]]`. -/
theorem claim_C1_witness :
    ((m1 (-1 : ℚ)).transpose * m1 (-1)).det ≠ 0 ∧
    frobenius_loss (m1 1) (m1 (-1) * (semi_nmf (m1 1) (m1 (-1)) (m1 (-1)) true).2) ≤
      frobenius_loss (m1 1) (m1 (-1) * m1 (-1)) := by
  have hdet : ((m1 (-1 : ℚ)).transpose * m1 (-1)).det ≠ 0 := by
    rw [transpose_m1, m1_mul, det_m1]
    norm_num
  exact ⟨hdet, claim_C1_amended (m1 1) (m1 (-1)) (m1 (-1)) hdet⟩

/-! ### Claim C9: the `data_format` flag -/

/-- C9: `semi_nmf` accepts a `data_format` flag; when it is false the
nonnegativity constraint is applied to `V` instead of `U`: for every
valid-shape input the returned `V` is entrywise nonnegative, while the
returned `U` may contain negative entries (exhibited at `A = U = [[1],[-1]]`,
`V = [[1]]`). -/
theorem claim_C9 :
    (∀ {m k n : ℕ} (A : Matrix (Fin m) (Fin n) ℚ)
        (U : Matrix (Fin m) (Fin k) ℚ) (V : Matrix (Fin k) (Fin n) ℚ),
      ∀ i j, 0 ≤ (semi_nmf A U V false).2 i j) ∧
    (semi_nmf (m21 1 (-1)) (m21 1 (-1)) (m1 1) false).1 1 0 < 0 := by
  constructor
  · intro m k n A U V i j
    rw [semi_nmf_snd_false]
    exact le_max_right _ _
  · have hsr : solve_right (m21 (1 : ℚ) (-1)) (m21 1 (-1)) = m1 1 := by
      rw [solve_right_m21 _ _ _ _ (by norm_num)]
      norm_num
    have hsl : solve_left (m1 (1 : ℚ)) (m21 1 (-1)) = m21 1 (-1) := by
      rw [solve_left_m1_m21 _ _ _ (by norm_num)]
      norm_num
    rw [semi_nmf_fst_false, hsr, project_nonneg_m1]
    norm_num
    rw [hsl]
    simp [m21]

/-! ### Claim C4: skipping the `V` update in `nonlin_semi_nmf` -/

/-- C4: `nonlin_semi_nmf` called with `num_calc_v = 0` returns the input `V`
elementwise unmodified (for every input and every choice of the remaining
budgets), while the `U` factor is still updated (exhibited at
`A = [[2]]`, `U = V = [[1]]`, `num_calc_u = 1`, `num_iters = 1`, where the
returned `U` is `[[2]] ≠ [[1]]`). -/
theorem claim_C4 :
    (∀ {m k n : ℕ} (A : Matrix (Fin m) (Fin n) ℚ)
        (U : Matrix (Fin m) (Fin k) ℚ) (V : Matrix (Fin k) (Fin n) ℚ)
        (num_calc_u num_iters : ℕ),
      (nonlin_semi_nmf A U V num_calc_u 0 num_iters).2 = V) ∧
    (nonlin_semi_nmf (m1 2) (m1 1) (m1 1) 1 0 1).1 ≠ m1 1 := by
  constructor
  · intro m k n A U V ncu iters
    induction iters with
    | zero => rfl
    | succ t ih =>
      unfold nonlin_semi_nmf at *
      rw [Function.iterate_succ_apply']
      exact ih
  · have hstep : nonlin_semi_nmf (m1 2) (m1 1) (m1 1) 1 0 1 =
        (nonlin_u_step (m1 2) (m1 1) (m1 1), m1 1) := rfl
    rw [hstep]
    have htgt : nonlin_target (m1 2) (m1 1 * m1 1) = m1 2 := by
      rw [m1_mul]
      ext i j
      simp only [nonlin_target, m1, Matrix.of_apply]
      norm_num
    have : nonlin_u_step (m1 2) (m1 1) (m1 1) = m1 2 := by
      unfold nonlin_u_step
      rw [htgt, solve_left_m1 _ _ (by norm_num), project_nonneg_m1]
      norm_num
    rw [this]
    intro hEq
    have h2 := congrFun (congrFun hEq 0) 0
    simp only [m1, Matrix.of_apply] at h2
    norm_num at h2

/-! ### Claim C5: shape validation at solver entry -/

/-- C5: all three entry points require `A.rows == U.rows`,
`U.cols == V.rows` (pre bias-augmentation) and `V.cols == A.cols`; for every
input violating these they fail with `ShapeMismatch` at solver entry and
return no partial result. -/
theorem claim_C5 (a u v : MatD) (use_bias data_format : Bool)
    (num_calc_u num_calc_v num_iters : ℕ) (h : ¬ shape_ok a u v use_bias) :
    semi_nmf_checked a u v use_bias data_format =
      Except.error NmfError.ShapeMismatch ∧
    softmax_nmf_checked a u v use_bias =
      Except.error NmfError.ShapeMismatch ∧
    nonlin_semi_nmf_checked a u v use_bias num_calc_u num_calc_v num_iters =
      Except.error NmfError.ShapeMismatch := by
  cases use_bias <;>
    exact ⟨by simp only [semi_nmf_checked]; rw [dif_neg h],
           by simp only [softmax_nmf_checked]; rw [dif_neg h],
           by simp only [nonlin_semi_nmf_checked]; rw [dif_neg h]⟩

/-- C5 witness: a concrete shape violation (`A` is 1×1, `U` is 2×1, so
`A.rows ≠ U.rows`) makes all three entry points fail with
`ShapeMismatch`. -/
theorem claim_C5_witness :
    ¬ shape_ok ⟨1, 1, m1 0⟩ ⟨2, 1, m21 0 0⟩ ⟨1, 1, m1 0⟩ false ∧
    semi_nmf_checked ⟨1, 1, m1 0⟩ ⟨2, 1, m21 0 0⟩ ⟨1, 1, m1 0⟩ false true =
      Except.error NmfError.ShapeMismatch ∧
    softmax_nmf_checked ⟨1, 1, m1 0⟩ ⟨2, 1, m21 0 0⟩ ⟨1, 1, m1 0⟩ false =
      Except.error NmfError.ShapeMismatch ∧
    nonlin_semi_nmf_checked ⟨1, 1, m1 0⟩ ⟨2, 1, m21 0 0⟩ ⟨1, 1, m1 0⟩ false 1 1 1 =
      Except.error NmfError.ShapeMismatch := by
  have h : ¬ shape_ok ⟨1, 1, m1 0⟩ ⟨2, 1, m21 0 0⟩ ⟨1, 1, m1 0⟩ false := by
    simp [shape_ok]
  exact ⟨h, claim_C5 _ _ _ false true 1 1 1 h⟩

/-! ### Claim C10: the asymmetric bias-mode interface -/

/-- C10: in bias mode the accepted precondition is `V.rows == U.cols + 1`
with `U` passed un-augmented, and the solvers return `U'` of shape
`(A.rows, U.cols)` (still un-augmented) and `V'` of shape
`(U.cols + 1, A.cols)`; the caller must append the ones column to `U'`
themselves to form the affine reconstruction. -/
theorem claim_C10 (a u v : MatD) (num_calc_u num_calc_v num_iters : ℕ)
    (h : shape_ok a u v true) :
    (∃ p : MatD × MatD, semi_nmf_checked a u v true true = Except.ok p ∧
      p.1.rows = a.rows ∧ p.1.cols = u.cols ∧
      p.2.rows = u.cols + 1 ∧ p.2.cols = a.cols) ∧
    (∃ q : MatD × MatD,
      nonlin_semi_nmf_checked a u v true num_calc_u num_calc_v num_iters =
        Except.ok q ∧
      q.1.rows = a.rows ∧ q.1.cols = u.cols ∧
      q.2.rows = u.cols + 1 ∧ q.2.cols = a.cols) := by
  constructor
  · simp only [semi_nmf_checked]
    rw [dif_pos h]
    exact ⟨_, rfl, rfl, rfl, rfl, rfl⟩
  · simp only [nonlin_semi_nmf_checked]
    rw [dif_pos h]
    exact ⟨_, rfl, rfl, rfl, rfl, rfl⟩

/-- C10 witness: valid bias-mode shapes (`A` 1×1, `U` 1×0, `V` 1×1, so
`V.rows = U.cols + 1`) are accepted with the stated result shapes. -/
theorem claim_C10_witness :
    shape_ok ⟨1, 1, m1 0⟩ ⟨1, 0, Matrix.of fun _ _ => 0⟩ ⟨1, 1, m1 1⟩ true ∧
    ((∃ p : MatD × MatD,
      semi_nmf_checked ⟨1, 1, m1 0⟩ ⟨1, 0, Matrix.of fun _ _ => 0⟩ ⟨1, 1, m1 1⟩
          true true = Except.ok p ∧
      p.1.rows = 1 ∧ p.1.cols = 0 ∧ p.2.rows = 0 + 1 ∧ p.2.cols = 1) ∧
    (∃ q : MatD × MatD,
      nonlin_semi_nmf_checked ⟨1, 1, m1 0⟩ ⟨1, 0, Matrix.of fun _ _ => 0⟩
          ⟨1, 1, m1 1⟩ true 1 1 1 = Except.ok q ∧
      q.1.rows = 1 ∧ q.1.cols = 0 ∧ q.2.rows = 0 + 1 ∧ q.2.cols = 1)) := by
  have h : shape_ok ⟨1, 1, m1 0⟩ ⟨1, 0, Matrix.of fun _ _ => 0⟩ ⟨1, 1, m1 1⟩
      true := by
    simp [shape_ok, biasOffset]
  exact ⟨h, claim_C10 _ _ _ 1 1 1 h⟩

/-! ### Claim C6: the augmented row is never recomputed -/

lemma stackLast_last {k n : ℕ} (T : Matrix (Fin k) (Fin n) ℚ) (b : Fin n → ℚ)
    (j : Fin n) : stackLast T b (Fin.last k) j = b j := by
  simp [stackLast, Fin.snoc_last]

lemma semi_nmf_bias_snd {m k n : ℕ} (A : Matrix (Fin m) (Fin n) ℚ)
    (U : Matrix (Fin m) (Fin k) ℚ) (V : Matrix (Fin (k + 1)) (Fin n) ℚ) :
    (semi_nmf_bias A U V).2 =
      stackLast (solve_right U (A - biasMat (fun j => V (Fin.last k) j)))
        (fun j => V (Fin.last k) j) := rfl

lemma softmax_nmf_bias_snd {m k n : ℕ} (A : Matrix (Fin m) (Fin n) ℚ)
    (U : Matrix (Fin m) (Fin k) ℚ) (V : Matrix (Fin (k + 1)) (Fin n) ℚ) :
    (softmax_nmf_bias A U V).2 =
      stackLast (solve_right U (A - biasMat (fun j => V (Fin.last k) j)))
        (fun j => V (Fin.last k) j) := rfl

lemma nonlin_bias_v_step_last {m k n : ℕ} (A : Matrix (Fin m) (Fin n) ℚ)
    (U : Matrix (Fin m) (Fin k) ℚ) (W : Matrix (Fin (k + 1)) (Fin n) ℚ)
    (j : Fin n) :
    nonlin_bias_v_step A U W (Fin.last k) j = W (Fin.last k) j := by
  unfold nonlin_bias_v_step
  exact stackLast_last _ _ j

lemma nonlin_bias_outer_last {m k n : ℕ} (A : Matrix (Fin m) (Fin n) ℚ)
    (ncu ncv : ℕ)
    (p : Matrix (Fin m) (Fin k) ℚ × Matrix (Fin (k + 1)) (Fin n) ℚ)
    (j : Fin n) :
    (nonlin_bias_outer A ncu ncv p).2 (Fin.last k) j = p.2 (Fin.last k) j := by
  show ((fun W => nonlin_bias_v_step A p.1 W)^[ncv] p.2) (Fin.last k) j = _
  induction ncv with
  | zero => rfl
  | succ t ih =>
    rw [Function.iterate_succ_apply', nonlin_bias_v_step_last]
    exact ih

/-- C6: for every bias-enabled solve where the input `V` carries a last row
of all ones, the returned `V` still has that constant all-ones last row
unchanged — the augmented row is never recomputed by the least-squares update
or touched by any projection, in all three bias-enabled solvers. -/
theorem claim_C6 {m k n : ℕ} (A : Matrix (Fin m) (Fin n) ℚ)
    (U : Matrix (Fin m) (Fin k) ℚ) (V : Matrix (Fin (k + 1)) (Fin n) ℚ)
    (num_calc_u num_calc_v num_iters : ℕ)
    (h : ∀ j, V (Fin.last k) j = 1) :
    (∀ j, (semi_nmf_bias A U V).2 (Fin.last k) j = 1) ∧
    (∀ j, (softmax_nmf_bias A U V).2 (Fin.last k) j = 1) ∧
    (∀ j, (nonlin_semi_nmf_bias A U V num_calc_u num_calc_v num_iters).2
        (Fin.last k) j = 1) := by
  refine ⟨fun j => ?_, fun j => ?_, fun j => ?_⟩
  · rw [semi_nmf_bias_snd, stackLast_last]
    exact h j
  · rw [softmax_nmf_bias_snd, stackLast_last]
    exact h j
  · have hiter : ∀ t,
        (nonlin_semi_nmf_bias A U V num_calc_u num_calc_v t).2 (Fin.last k) j =
          V (Fin.last k) j := by
      intro t
      induction t with
      | zero => rfl
      | succ s ih =>
        unfold nonlin_semi_nmf_bias at *
        rw [Function.iterate_succ_apply', nonlin_bias_outer_last]
        exact ih
    rw [hiter]
    exact h j

/-- C6 witness: at `m = n = 1`, `k = 0`, `V = [[1]]` (its last row is the
ones row), all three bias solvers return `V` with last row still all
ones. -/
theorem claim_C6_witness :
    (∀ j, m1 1 (Fin.last 0) j = 1) ∧
    ((∀ j, (semi_nmf_bias (m1 0) (Matrix.of fun _ _ => 0) (m1 1)).2
        (Fin.last 0) j = 1) ∧
    (∀ j, (softmax_nmf_bias (m1 0) (Matrix.of fun _ _ => 0) (m1 1)).2
        (Fin.last 0) j = 1) ∧
    (∀ j, (nonlin_semi_nmf_bias (m1 0) (Matrix.of fun _ _ => 0) (m1 1) 1 1 1).2
        (Fin.last 0) j = 1)) :=
  ⟨fun _ => rfl,
   claim_C6 (m1 0) (Matrix.of fun _ _ => 0) (m1 1) 1 1 1 fun _ => rfl⟩

/-! ### Correctness of the simplex projector (§4.4) -/

lemma simplexCond_one {u : List ℚ} (hu : u ≠ []) : simplexCond u 1 := by
  refine ⟨le_refl 1, List.length_pos.mpr hu, ?_⟩
  cases u with
  | nil => exact absurd rfl hu
  | cons a t =>
    have h1 : takeSum (a :: t) 1 = a := by simp [takeSum]
    rw [h1]
    norm_num

lemma simplexRho_pos {u : List ℚ} (hu : u ≠ []) : 1 ≤ simplexRho u :=
  Nat.le_findGreatest (List.length_pos.mpr hu) (simplexCond_one hu)

lemma simplexRho_le (u : List ℚ) : simplexRho u ≤ u.length :=
  Nat.findGreatest_le _

lemma simplexCond_rho {u : List ℚ} (hu : u ≠ []) :
    simplexCond u (simplexRho u) :=
  Nat.findGreatest_spec (List.length_pos.mpr hu) (simplexCond_one hu)

lemma simplex_beyond {u : List ℚ} (hu : u ≠ []) {t : ℕ}
    (h1 : simplexRho u < t) (h2 : t ≤ u.length) :
    (t : ℚ) * u.getD (t - 1) 0 + 1 ≤ takeSum u t := by
  have hnc : ¬ simplexCond u t := Nat.findGreatest_is_greatest h1 h2
  have h1' : 1 ≤ t := le_trans (simplexRho_pos hu) (le_of_lt h1)
  by_contra hlt
  push_neg at hlt
  exact hnc ⟨h1', h2, hlt⟩

lemma simplex_Dstep {u : List ℚ} (hu : u ≠ []) {t : ℕ}
    (h1 : simplexRho u < t + 1) (h2 : t + 1 ≤ u.length) (ht : 1 ≤ t) :
    (takeSum u (t + 1) - 1) / ((t : ℚ) + 1) ≤ (takeSum u t - 1) / (t : ℚ) ∧
    u.getD t 0 ≤ (takeSum u t - 1) / (t : ℚ) := by
  have hlt : t < u.length := h2
  have hS : takeSum u (t + 1) = takeSum u t + u.getD t 0 := by
    unfold takeSum
    rw [List.sum_take_succ _ _ hlt, List.getD_eq_getElem _ _ hlt]
  have hb := simplex_beyond hu h1 h2
  rw [Nat.add_sub_cancel] at hb
  have htq : (0 : ℚ) < (t : ℚ) := by exact_mod_cast ht
  have ht1q : (0 : ℚ) < (t : ℚ) + 1 := by linarith
  have hcast : ((t + 1 : ℕ) : ℚ) = (t : ℚ) + 1 := by push_cast; ring
  rw [hcast] at hb
  -- from ((t:ℚ)+1) * u_t + 1 ≤ S_t + u_t we get t * u_t ≤ S_t - 1
  have hkey : (t : ℚ) * u.getD t 0 ≤ takeSum u t - 1 := by
    rw [hS] at hb
    linarith
  constructor
  · rw [hS, div_le_div_iff ht1q htq]
    ring_nf
    nlinarith [hkey]
  · rw [le_div_iff htq]
    linarith [hkey]

lemma simplex_Dchain {u : List ℚ} (hu : u ≠ []) :
    ∀ t, simplexRho u ≤ t → t ≤ u.length →
      (takeSum u t - 1) / (t : ℚ) ≤
        (takeSum u (simplexRho u) - 1) / ((simplexRho u : ℕ) : ℚ) := by
  intro t
  induction t with
  | zero =>
    intro h1 _
    exact absurd (le_trans (simplexRho_pos hu) h1) (by omega)
  | succ t ih =>
    intro h1 h2
    rcases Nat.lt_or_ge (simplexRho u) (t + 1) with hlt | hge
    · have hρt : simplexRho u ≤ t := Nat.lt_succ_iff.mp hlt
      have ht1 : 1 ≤ t := le_trans (simplexRho_pos hu) hρt
      have hstep := simplex_Dstep hu hlt h2 ht1
      have hchain := ih hρt (le_trans (Nat.le_succ t) h2)
      calc (takeSum u (t + 1) - 1) / ((t + 1 : ℕ) : ℚ)
          = (takeSum u (t + 1) - 1) / ((t : ℚ) + 1) := by push_cast; ring_nf
        _ ≤ (takeSum u t - 1) / (t : ℚ) := hstep.1
        _ ≤ _ := hchain
    · have heq : simplexRho u = t + 1 := le_antisymm h1 hge
      rw [heq]

lemma simplex_tail_le {u : List ℚ} (hu : u ≠ []) {j : ℕ}
    (hj1 : simplexRho u ≤ j) (hj2 : j < u.length) :
    u.getD j 0 ≤
      (takeSum u (simplexRho u) - 1) / ((simplexRho u : ℕ) : ℚ) := by
  have h1 : simplexRho u < j + 1 := Nat.lt_succ_of_le hj1
  have hj1' : 1 ≤ j := le_trans (simplexRho_pos hu) hj1
  have hstep := simplex_Dstep hu h1 hj2 hj1'
  exact le_trans hstep.2 (simplex_Dchain hu j hj1 (le_of_lt hj2))

lemma simplex_head_gt {u : List ℚ} (hu : u ≠ []) (hs : u.Sorted (· ≥ ·))
    {i : ℕ} (hi : i < simplexRho u) :
    (takeSum u (simplexRho u) - 1) / ((simplexRho u : ℕ) : ℚ) <
      u.getD i 0 := by
  obtain ⟨h1, h2, h3⟩ := simplexCond_rho hu
  have hρpos : (0 : ℚ) < ((simplexRho u : ℕ) : ℚ) := by exact_mod_cast h1
  have hρ1lt : simplexRho u - 1 < u.length := by omega
  have hilt : i < u.length := by omega
  have hlast : (takeSum u (simplexRho u) - 1) / ((simplexRho u : ℕ) : ℚ) <
      u.getD (simplexRho u - 1) 0 := by
    rw [div_lt_iff hρpos]
    nlinarith [h3]
  have hmono : u.getD (simplexRho u - 1) 0 ≤ u.getD i 0 := by
    rw [List.getD_eq_getElem _ _ hρ1lt, List.getD_eq_getElem _ _ hilt]
    have hrel : u.get ⟨i, hilt⟩ ≥ u.get ⟨simplexRho u - 1, hρ1lt⟩ :=
      hs.rel_get_of_le (Fin.mk_le_mk.mpr (by omega))
    simpa [List.get_eq_getElem] using hrel
  exact lt_of_lt_of_le hlast hmono

lemma sum_map_add_const (l : List ℚ) (c : ℚ) :
    (l.map (fun x => x + c)).sum = l.sum + (l.length : ℚ) * c := by
  induction l with
  | nil => simp
  | cons a t ih =>
    simp only [List.map_cons, List.sum_cons, List.length_cons, ih]
    push_cast
    ring

lemma simplex_sorted_sum {u : List ℚ} (hu : u ≠ []) (hs : u.Sorted (· ≥ ·)) :
    (u.map (fun x =>
      max (x + (1 - takeSum u (simplexRho u)) / ((simplexRho u : ℕ) : ℚ)) 0)).sum
      = 1 := by
  have hρ1 : 1 ≤ simplexRho u := simplexRho_pos hu
  have hρN : simplexRho u ≤ u.length := simplexRho_le u
  have hρpos : (0 : ℚ) < ((simplexRho u : ℕ) : ℚ) := by exact_mod_cast hρ1
  set lam : ℚ := (1 - takeSum u (simplexRho u)) / ((simplexRho u : ℕ) : ℚ)
    with hlam
  have hlamneg : lam = -((takeSum u (simplexRho u) - 1) /
      ((simplexRho u : ℕ) : ℚ)) := by
    rw [hlam]
    ring
  have hsplit := (List.take_append_drop (simplexRho u) u).symm
  have hlen : (u.take (simplexRho u)).length = simplexRho u := by
    rw [List.length_take]
    omega
  have htail : ((u.drop (simplexRho u)).map (fun x => max (x + lam) 0)).sum = 0 := by
    apply List.sum_eq_zero
    intro x hx
    rw [List.mem_map] at hx
    obtain ⟨y, hy, rfl⟩ := hx
    obtain ⟨i, hi, rfl⟩ := List.mem_iff_getElem.mp hy
    have hidx : simplexRho u + i < u.length := by
      have := hi
      rw [List.length_drop] at this
      omega
    have hdg : (u.drop (simplexRho u))[i] = u.getD (simplexRho u + i) 0 := by
      rw [List.getD_eq_getElem _ _ hidx]
      exact List.getElem_drop u
    rw [hdg]
    have hb := simplex_tail_le hu (Nat.le_add_right _ i) hidx
    apply max_eq_right
    rw [hlamneg]
    linarith
  have hmapeq : (u.take (simplexRho u)).map (fun x => max (x + lam) 0) =
      (u.take (simplexRho u)).map (fun x => x + lam) := by
    apply List.map_congr_left
    intro x hx
    obtain ⟨i, hi, rfl⟩ := List.mem_iff_getElem.mp hx
    have hiρ : i < simplexRho u := by
      have := hi
      rw [hlen] at this
      exact this
    have hilt : i < u.length := by omega
    have hgt : (u.take (simplexRho u))[i] = u.getD i 0 := by
      rw [List.getD_eq_getElem _ _ hilt]
      exact List.getElem_take u
    rw [hgt]
    have hh := simplex_head_gt hu hs hiρ
    apply max_eq_left
    rw [hlamneg]
    linarith
  have hheadsum : ((u.take (simplexRho u)).map (fun x => x + lam)).sum =
      takeSum u (simplexRho u) + ((simplexRho u : ℕ) : ℚ) * lam := by
    rw [sum_map_add_const, hlen]
    rfl
  have hρne : ((simplexRho u : ℕ) : ℚ) ≠ 0 := ne_of_gt hρpos
  conv_lhs => rw [hsplit]
  rw [List.map_append, List.sum_append, htail, hmapeq, hheadsum, hlam]
  field_simp

lemma simplexLam_eq (l : List ℚ) :
    simplexLam l =
      (1 - takeSum (sortedDesc l) (simplexRho (sortedDesc l))) /
        ((simplexRho (sortedDesc l) : ℕ) : ℚ) := rfl

lemma projRow_sum {n : ℕ} (hn : 0 < n) (r : Fin n → ℚ) :
    ∑ j, projRow r j = 1 := by
  have hlen : (sortedDesc (List.ofFn r)).length = n := by
    rw [sortedDesc, List.length_insertionSort, List.length_ofFn]
  have hne : sortedDesc (List.ofFn r) ≠ [] :=
    List.ne_nil_of_length_pos (by rw [hlen]; exact hn)
  have hsorted : (sortedDesc (List.ofFn r)).Sorted (· ≥ ·) :=
    List.sorted_insertionSort _ _
  have hperm : List.Perm (List.ofFn r) (sortedDesc (List.ofFn r)) :=
    (List.perm_insertionSort _ _).symm
  have hmain := simplex_sorted_sum hne hsorted
  calc ∑ j, projRow r j
      = (List.ofFn (projRow r)).sum := List.sum_ofFn.symm
    _ = ((List.ofFn r).map
          (fun x => max (x + simplexLam (List.ofFn r)) 0)).sum := by
        rw [List.map_ofFn]
        rfl
    _ = ((sortedDesc (List.ofFn r)).map
          (fun x => max (x + simplexLam (List.ofFn r)) 0)).sum :=
        (hperm.map _).sum_eq
    _ = 1 := by
        rw [simplexLam_eq]
        exact hmain

/-- The clamped-threshold output is the Euclidean-closest point of the
probability simplex to the input row (the §4.4 guarantee). -/
lemma projRow_closest {n : ℕ} (hn : 0 < n) (r z : Fin n → ℚ)
    (hz0 : ∀ j, 0 ≤ z j) (hz1 : ∑ j, z j = 1) :
    ∑ j, (projRow r j - r j) ^ 2 ≤ ∑ j, (z j - r j) ^ 2 := by
  have hxsum : ∑ j, projRow r j = 1 := projRow_sum hn r
  have hkey : ∀ j, simplexLam (List.ofFn r) * (z j - projRow r j) ≤
      (z j - projRow r j) * (projRow r j - r j) := by
    intro j
    have hx : projRow r j = max (r j + simplexLam (List.ofFn r)) 0 := rfl
    rcases le_or_lt 0 (r j + simplexLam (List.ofFn r)) with hc | hc
    · rw [hx, max_eq_left hc]
      exact le_of_eq (by ring)
    · rw [hx, max_eq_right (le_of_lt hc)]
      have h2 := hz0 j
      nlinarith
  have hcross : 0 ≤ ∑ j, (z j - projRow r j) * (projRow r j - r j) := by
    have hle := Finset.sum_le_sum fun j (_ : j ∈ Finset.univ) => hkey j
    have hzero : ∑ j, simplexLam (List.ofFn r) * (z j - projRow r j) = 0 := by
      rw [← Finset.mul_sum, Finset.sum_sub_distrib, hz1, hxsum, sub_self,
        mul_zero]
    linarith
  have hexp : ∑ j, (z j - r j) ^ 2 =
      (∑ j, (z j - projRow r j) ^ 2) +
      (2 * ∑ j, (z j - projRow r j) * (projRow r j - r j)) +
      ∑ j, (projRow r j - r j) ^ 2 := by
    rw [Finset.mul_sum, ← Finset.sum_add_distrib, ← Finset.sum_add_distrib]
    exact Finset.sum_congr rfl fun j _ => by ring
  have hsq : 0 ≤ ∑ j, (z j - projRow r j) ^ 2 :=
    Finset.sum_nonneg fun j _ => sq_nonneg _
  linarith

/-! ### Claim C2: simplex rows of the `softmax_nmf` output -/

/-- C2: for every input triple of valid shapes (with a nonempty latent
dimension), every row of the factor `U` returned by `softmax_nmf` is
nonnegative and sums to `1` within `1e-6` tolerance — indeed it sums to
exactly `1` in exact arithmetic, for every row, not merely some row. -/
theorem claim_C2 {m k n : ℕ} (hk : 0 < k) (A : Matrix (Fin m) (Fin n) ℚ)
    (U : Matrix (Fin m) (Fin k) ℚ) (V : Matrix (Fin k) (Fin n) ℚ)
    (i : Fin m) :
    (∀ j, 0 ≤ (softmax_nmf A U V).1 i j) ∧
    |(∑ j, (softmax_nmf A U V).1 i j) - 1| ≤ 1 / 1000000 := by
  rw [softmax_nmf_fst]
  constructor
  · intro j
    exact le_max_right _ _
  · have hsum : ∑ j, project_simplex_rows (solve_left (solve_right U A) A) i j
        = 1 := projRow_sum hk _
    rw [hsum]
    norm_num

/-- C2 witness: the property holds at the concrete 1×1 input
`A = U = V = [[1]]`. -/
theorem claim_C2_witness :
    0 < 1 ∧
    ((∀ j, 0 ≤ (softmax_nmf (m1 1) (m1 1) (m1 1)).1 0 j) ∧
     |(∑ j, (softmax_nmf (m1 1) (m1 1) (m1 1)).1 0 j) - 1| ≤ 1 / 1000000) :=
  ⟨Nat.one_pos, claim_C2 Nat.one_pos (m1 1) (m1 1) (m1 1) 0⟩

/-! ### Claim C7: correctness of the simplex projector -/

/-- C7: for every input matrix (with nonempty rows), each output row of
`project_simplex_rows` is nonnegative, sums to `1`, and is the
Euclidean-closest point of the probability simplex to the corresponding input
row; in particular the row `[3, 1, -2]` projects to `[1, 0, 0]`. -/
theorem claim_C7 {m n : ℕ} (hn : 0 < n) (M : Matrix (Fin m) (Fin n) ℚ)
    (i : Fin m) :
    (∀ j, 0 ≤ project_simplex_rows M i j) ∧
    (∑ j, project_simplex_rows M i j = 1) ∧
    (∀ z : Fin n → ℚ, (∀ j, 0 ≤ z j) → ∑ j, z j = 1 →
      ∑ j, (project_simplex_rows M i j - M i j) ^ 2 ≤
        ∑ j, (z j - M i j) ^ 2) ∧
    (∀ j, project_simplex_rows
        (Matrix.of fun (_ : Fin 1) (j2 : Fin 3) =>
          if j2 = 0 then (3 : ℚ) else if j2 = 1 then 1 else -2) 0 j =
      if j = 0 then 1 else 0) := by
  refine ⟨fun j => le_max_right _ _, projRow_sum hn _, ?_, ?_⟩
  · intro z hz0 hz1
    exact projRow_closest hn (fun j => M i j) z hz0 hz1
  · intro j
    have hofFn : List.ofFn
        (fun (j2 : Fin 3) => if j2 = 0 then (3 : ℚ) else if j2 = 1 then 1 else -2)
        = [3, 1, -2] := by
      simp [List.ofFn_succ]
    have hsort : sortedDesc [(3 : ℚ), 1, -2] = [3, 1, -2] := by
      norm_num [sortedDesc, List.insertionSort, List.orderedInsert]
    have hrho : simplexRho [(3 : ℚ), 1, -2] = 1 := by
      norm_num [simplexRho, Nat.findGreatest, simplexCond, takeSum]
    have hlam : simplexLam [(3 : ℚ), 1, -2] = -2 := by
      simp only [simplexLam]
      rw [hsort, hrho]
      norm_num [takeSum]
    have hpr : project_simplex_rows
        (Matrix.of fun (_ : Fin 1) (j2 : Fin 3) =>
          if j2 = 0 then (3 : ℚ) else if j2 = 1 then 1 else -2) 0 j =
        max ((if j = 0 then (3 : ℚ) else if j = 1 then 1 else -2) +
          simplexLam (List.ofFn (fun (j2 : Fin 3) =>
            if j2 = 0 then (3 : ℚ) else if j2 = 1 then 1 else -2))) 0 := rfl
    rw [hpr, hofFn, hlam]
    fin_cases j <;> norm_num [Fin.ext_iff]

/-- C7 witness: the hypothesis and conclusion hold at the concrete 1×3
matrix whose single row is `[3, 1, -2]`. -/
theorem claim_C7_witness :
    0 < 3 ∧
    ((∀ j, 0 ≤ project_simplex_rows
        (Matrix.of fun (_ : Fin 1) (j2 : Fin 3) =>
          if j2 = 0 then (3 : ℚ) else if j2 = 1 then 1 else -2) 0 j) ∧
    (∑ j, project_simplex_rows
        (Matrix.of fun (_ : Fin 1) (j2 : Fin 3) =>
          if j2 = 0 then (3 : ℚ) else if j2 = 1 then 1 else -2) 0 j = 1) ∧
    (∀ z : Fin 3 → ℚ, (∀ j, 0 ≤ z j) → ∑ j, z j = 1 →
      ∑ j, (project_simplex_rows
        (Matrix.of fun (_ : Fin 1) (j2 : Fin 3) =>
          if j2 = 0 then (3 : ℚ) else if j2 = 1 then 1 else -2) 0 j -
        (Matrix.of fun (_ : Fin 1) (j2 : Fin 3) =>
          if j2 = 0 then (3 : ℚ) else if j2 = 1 then 1 else -2) 0 j) ^ 2 ≤
        ∑ j, (z j -
        (Matrix.of fun (_ : Fin 1) (j2 : Fin 3) =>
          if j2 = 0 then (3 : ℚ) else if j2 = 1 then 1 else -2) 0 j) ^ 2) ∧
    (∀ j, project_simplex_rows
        (Matrix.of fun (_ : Fin 1) (j2 : Fin 3) =>
          if j2 = 0 then (3 : ℚ) else if j2 = 1 then 1 else -2) 0 j =
      if j = 0 then 1 else 0)) :=
  ⟨Nat.succ_pos 2,
   claim_C7 (Nat.succ_pos 2)
     (Matrix.of fun (_ : Fin 1) (j2 : Fin 3) =>
       if j2 = 0 then (3 : ℚ) else if j2 = 1 then 1 else -2) 0⟩

end SakuraiNMF
